import Mathlib

/-!
Verification of the `riemann` repository: an n-dimensional Riemann-sum
package built on Python `decimal.Decimal` arithmetic.

Numbers are modelled by their exact rational value (`ℚ`).  Python's
`decimal` module computes every arithmetic result exactly and then rounds
it to the context precision of 28 significant digits with the
ROUND_HALF_EVEN rounding mode; `decRound` below implements exactly that
value-level rounding, and `dadd`/`dsub`/`dmul`/`ddiv` are the rounded
operations.  Python exceptions are modelled by `Except PyErr`.
-/

attribute [local semireducible] Rat.add Rat.mul Rat.inv Rat.sub Rat.ofScientific

/-- Python exceptions raised by the code under verification:
`ValueError` (arity mismatch in `rsum`, unrecognized method in
`_partition_values`), `decimal.DivisionByZero` (partition count 0) and
`TypeError` (`reduce` of an empty sequence; instantiating a method class
with constructor arguments). -/
inductive PyErr where
  | valueError : PyErr
  | divisionByZero : PyErr
  | typeError : PyErr
deriving DecidableEq, Repr

instance {ε α : Type} [DecidableEq ε] [DecidableEq α] : DecidableEq (Except ε α) :=
  fun a b =>
    match a, b with
    | .ok x, .ok y =>
      match decEq x y with
      | isTrue h => isTrue (by rw [h])
      | isFalse h => isFalse (fun hh => h (Except.ok.inj hh))
    | .ok _, .error _ => isFalse (fun hh => Except.noConfusion hh)
    | .error _, .ok _ => isFalse (fun hh => Except.noConfusion hh)
    | .error e, .error f =>
      match decEq e f with
      | isTrue h => isTrue (by rw [h])
      | isFalse h => isFalse (fun hh => h (Except.error.inj hh))

/-- Number of decimal digits of a natural number (0 has 0 digits).
The first argument is fuel; `nlen` instantiates it with the number itself,
which always suffices. -/
def nlenAux : ℕ → ℕ → ℕ
  | 0, _ => 0
  | fuel + 1, n => if n = 0 then 0 else nlenAux fuel (n / 10) + 1

/-- Number of decimal digits of a natural number. -/
def nlen (n : ℕ) : ℕ := nlenAux n n

/-- Round a rational number to 28 significant decimal digits with
ROUND_HALF_EVEN — the value computed by Python `decimal` operations under
the default context (`getcontext().prec == 28`).  A value `q ≠ 0` is
written as `±c · 10^e` with `c ∈ [10^27, 10^28)` and `c` is rounded to an
integer, ties going to the even neighbour. -/
def decRound (q : ℚ) : ℚ :=
  if q = 0 then 0
  else
    let p : ℕ := q.num.natAbs
    let d : ℕ := q.den
    let t : ℤ := (nlen p : ℤ) - (nlen d : ℤ)
    let k : ℤ := if (d : ℤ) * 10 ^ t.toNat ≤ (p : ℤ) * 10 ^ (-t).toNat then t else t - 1
    let e : ℤ := k - 27
    let P : ℕ := p * 10 ^ (-e).toNat
    let D : ℕ := d * 10 ^ e.toNat
    let m0 : ℕ := P / D
    let r : ℕ := P % D
    let m : ℕ :=
      if 2 * r < D then m0
      else if D < 2 * r then m0 + 1
      else if m0 % 2 = 0 then m0 else m0 + 1
    let s : ℤ := if q < 0 then -(m : ℤ) else (m : ℤ)
    if 0 ≤ e then ((s * 10 ^ e.toNat : ℤ) : ℚ) else (s : ℚ) / ((10 ^ (-e).toNat : ℕ) : ℚ)

/-- Decimal addition at context precision. -/
def dadd (a b : ℚ) : ℚ := decRound (a + b)

/-- Decimal subtraction at context precision. -/
def dsub (a b : ℚ) : ℚ := decRound (a - b)

/-- Decimal multiplication at context precision. -/
def dmul (a b : ℚ) : ℚ := decRound (a * b)

/-- Decimal division at context precision (the caller guards the
divisor; Python raises `decimal.DivisionByZero` on a zero divisor). -/
def ddiv (a b : ℚ) : ℚ := decRound (a / b)

/-- Python `sum(...)` over decimal values: left fold of decimal addition
starting from `0`. -/
def dsum (l : List ℚ) : ℚ := l.foldl dadd 0

/-- Exception propagation: continue with the value of the first
computation unless it raised. -/
def andThenE {α β : Type} (x : Except PyErr α) (f : α → Except PyErr β) : Except PyErr β :=
  match x with
  | .error e => .error e
  | .ok a => f a

/-- Sequential effectful map over a list in the `Except` monad, the
order in which Python materializes iterators: the first raised exception
propagates. -/
def mapE {α β : Type} (g : α → Except PyErr β) : List α → Except PyErr (List β)
  | [] => .ok []
  | a :: l => andThenE (g a) fun b => andThenE (mapE g l) fun r => .ok (b :: r)

/-- Cartesian product of lists in `itertools.product` order: the first
(leftmost) factor varies slowest. -/
def cartProd {α : Type} : List (List α) → List (List α)
  | [] => [[]]
  | xs :: rest => xs.flatMap (fun x => (cartProd rest).map (fun v => x :: v))

/-! ### `src/riemann/summation.py` -/

/-- Method tags, from `summation.py`: `LOWER, MIDDLE, UPPER = -1, 0, 1`. -/
def LOWER : ℤ := -1

/-- Middle Riemann summation method tag (`summation.py`). -/
def MIDDLE : ℤ := 0

/-- Upper Riemann summation method tag (`summation.py`). -/
def UPPER : ℤ := 1

/-- The `Dimension` named tuple of `summation.py`: interval bounds `a`,
`b` (modelled by their exact rational value — the claims under
verification concern rational, exactly-representable bounds), partition
count `n` and method tag. -/
structure Dimension where
  a : ℚ
  b : ℚ
  n : ℤ
  method : ℤ
deriving DecidableEq, Repr

/-- Loop body of `_partition_values` in `summation.py` at subdivision
index `i`: `bounds[0] + i * delta` for `LOWER`,
`bounds[0] + Decimal(2 * i + 1) / 2 * delta` for `MIDDLE`,
`bounds[0] + (i + 1) * delta` for `UPPER`, and `raise ValueError`
otherwise. -/
def step (bounds : ℚ × ℚ) (delta : ℚ) (method : ℤ) (i : ℕ) : Except PyErr ℚ :=
  if method = LOWER then .ok (dadd bounds.1 (dmul (i : ℚ) delta))
  else if method = MIDDLE then .ok (dadd bounds.1 (dmul (ddiv ((2 * i + 1 : ℕ) : ℚ) 2) delta))
  else if method = UPPER then .ok (dadd bounds.1 (dmul ((i + 1 : ℕ) : ℚ) delta))
  else .error .valueError

/-- `_partition_values(bounds, delta, n, method)` of `summation.py`,
materialized in the order `itertools.product` consumes the generator:
`for i in range(0, n, 1)` yield the sample for `i`, raising `ValueError`
on an unrecognized method. -/
def partitionValues (bounds : ℚ × ℚ) (delta : ℚ) (n : ℤ) (method : ℤ) :
    Except PyErr (List ℚ) :=
  mapE (step bounds delta method) (List.range n.toNat)

/-- Per-dimension subinterval length `dvar = (b - a) / dim.n` from the
loop of `rsum` in `summation.py`; Python raises
`decimal.DivisionByZero` when `dim.n == 0`. -/
def dxE (dim : Dimension) : Except PyErr ℚ :=
  if dim.n = 0 then .error .divisionByZero
  else .ok (ddiv (dsub dim.b dim.a) (dim.n : ℚ))

/-- The value of `dvar` for a dimension with nonzero partition count
(same expression as the `.ok` branch of `dxE`). -/
def dxVal (dim : Dimension) : ℚ := ddiv (dsub dim.b dim.a) (dim.n : ℚ)

/-- `rsum(func, *args)` of `summation.py`.  `func` is the opaque target
function (given positionally one value per dimension), `nparams` its
Python arity (`len(inspect.signature(func).parameters)`).  The arity
check runs first; the loop then computes every `dvar` (raising
`DivisionByZero` on a zero partition count) and accumulates
`delta`; `itertools.product(*values)` materializes the
`_partition_values` generators dimension by dimension (raising
`ValueError` on an unrecognized method); finally
`delta * sum(func(*v) for v in itertools.product(*values))`. -/
def rsum (func : List ℚ → ℚ) (nparams : ℕ) (args : List Dimension) : Except PyErr ℚ :=
  if args.length ≠ nparams then .error .valueError
  else
    andThenE (mapE dxE args) fun dvars =>
      andThenE (mapE (fun p => partitionValues (p.1.a, p.1.b) p.2 p.1.n p.1.method)
          (args.zip dvars)) fun values =>
        .ok (dmul (dvars.foldl dmul 1) (dsum ((cartProd values).map func)))

/-! ### `src/riemann.py` -/

/-- The objects that `src/riemann.py` passes as Riemann-sum methods:
the module-level instances `LEFT = Left()`, `MIDDLE = Middle()`,
`RIGHT = Right()`, and the classes `Left` and `Right` themselves,
which `trapezoidal_rule` places into its method combinations. -/
inductive MethodV where
  | leftI : MethodV
  | middleI : MethodV
  | rightI : MethodV
  | leftC : MethodV
  | rightC : MethodV
deriving DecidableEq, Repr

/-- Evaluation of `method(lower, length)` inside `Interval.partitions`.
For the instances this runs `Left.__call__` (`lower`),
`Middle.__call__` (`lower + length / 2`) or `Right.__call__`
(`lower + length`).  For the classes `Left` and `Right` the call
instantiates the class with two constructor arguments, and
`object.__new__` raises `TypeError` (neither class defines `__init__`
or `__new__`). -/
def methodCall : MethodV → ℚ → ℚ → Except PyErr ℚ
  | .leftI, lower, _ => .ok lower
  | .middleI, lower, length => .ok (dadd lower (ddiv length 2))
  | .rightI, lower, length => .ok (dadd lower length)
  | .leftC, _, _ => .error .typeError
  | .rightC, _, _ => .error .typeError

/-- The `Interval` class of `src/riemann.py` (named `IntervalR` here to
avoid a clash with Mathlib): bounds, partition count, and the derived
`length` computed in `__init__`. -/
structure IntervalR where
  lower : ℚ
  upper : ℚ
  npartitions : ℤ
  length : ℚ
deriving DecidableEq, Repr

/-- `Interval.__init__`: stores the bounds and computes
`self.length = (self.upper - self.lower) / self.npartitions`, which
raises `decimal.DivisionByZero` when `npartitions == 0`. -/
def mkInterval (lower upper : ℚ) (npartitions : ℤ) : Except PyErr IntervalR :=
  if npartitions = 0 then .error .divisionByZero
  else .ok ⟨lower, upper, npartitions, ddiv (dsub upper lower) (npartitions : ℚ)⟩

/-- Loop of `Interval.partitions`: `npartitions` times, yield
`method(lower, length)` and then advance the cursor
`lower += length`. -/
def partitionsGo (m : MethodV) (length : ℚ) : ℚ → ℕ → Except PyErr (List ℚ)
  | _, 0 => .ok []
  | lower, k + 1 =>
    andThenE (methodCall m lower length) fun v =>
      andThenE (partitionsGo m length (dadd lower length) k) fun rest => .ok (v :: rest)

/-- `Interval.partitions(method)` of `src/riemann.py`, materialized in
the order `itertools.product` consumes it. -/
def partitions (iv : IntervalR) (m : MethodV) : Except PyErr (List ℚ) :=
  partitionsGo m iv.length iv.lower iv.npartitions.toNat

/-- `riemann_sum(function, intervals, methods)` of `src/riemann.py`.
`nparams` is the arity of `function`; interval specifications
`(lower, upper, npartitions)` are converted to `Interval` objects
before the two length checks;
`delta = functools.reduce(operator.mul, lengths)` raises `TypeError`
on an empty interval list; the generators are then materialized by
`itertools.product` and the result is
`(sum(function(*v) for v in itertools.product(*values)) * delta).normalize()`
(normalization does not change the value). -/
def riemann_sum (f : List ℚ → ℚ) (nparams : ℕ) (specs : List (ℚ × ℚ × ℤ))
    (methods : List MethodV) : Except PyErr ℚ :=
  andThenE (mapE (fun s => mkInterval s.1 s.2.1 s.2.2) specs) fun intervals =>
    if intervals.length ≠ nparams then .error .valueError
    else if methods.length ≠ nparams then .error .valueError
    else
      match intervals.map (fun iv => iv.length) with
      | [] => .error .typeError
      | l :: ls =>
        andThenE (mapE (fun p => partitions p.1 p.2) (intervals.zip methods)) fun values =>
          .ok (dmul (dsum ((cartProd values).map f)) (ls.foldl dmul l))

/-- `trapezoidal_rule(function, intervals)` of `src/riemann.py`:
`methods = itertools.product((Left, Right), repeat=len(intervals))` —
note these are the classes, not the instances `LEFT`/`RIGHT` —
then `(sum(riemann_sum(function, intervals, m) for m in methods) /
ncombinations).normalize()` with `ncombinations = Decimal(2) ** len(intervals)`. -/
def trapezoidal_rule (f : List ℚ → ℚ) (nparams : ℕ) (specs : List (ℚ × ℚ × ℤ)) :
    Except PyErr ℚ :=
  andThenE (mapE (fun ms => riemann_sum f nparams specs ms)
      (cartProd (List.replicate specs.length [MethodV.leftC, MethodV.rightC]))) fun results =>
    .ok (ddiv (dsum results) (decRound ((2 : ℚ) ^ specs.length)))

/-! ### Exact-arithmetic sample generation (claim C9's premise)

The spec asserts that the closed-form index formulation of
`_partition_values` (`summation.py`) and the subinterval formulation
(`structures.py` `Subintervals.subintervals` with the endpoint/average
selectors of `methods.py`) agree under exact decimal arithmetic; the
following definitions are those two formulations with exact rational
arithmetic. -/

/-- Closed-form sample of `_partition_values` (`summation.py`) at
subdivision index `i`, under exact arithmetic: `a + i * dx` for
`LOWER`, `a + (2*i + 1)/2 * dx` for `MIDDLE`, `a + (i + 1) * dx` for
`UPPER`. -/
def closedSample (a dxv : ℚ) (method : ℤ) (i : ℕ) : ℚ :=
  if method = LOWER then a + (i : ℚ) * dxv
  else if method = MIDDLE then a + ((2 * i + 1 : ℕ) : ℚ) / 2 * dxv
  else a + ((i + 1 : ℕ) : ℚ) * dxv

/-- Closed-form sample sequence for `n` subdivisions. -/
def closedSamples (a dxv : ℚ) (n : ℕ) (method : ℤ) : List ℚ :=
  (List.range n).map (closedSample a dxv method)

/-- Loop of `Subintervals.subintervals` (`structures.py`), under exact
arithmetic: `k` times, yield `Interval(lower, lower + self.length)`
and advance the cursor `lower += self.length`. -/
def subintervalsFrom (dxv : ℚ) : ℚ → ℕ → List (ℚ × ℚ)
  | _, 0 => []
  | lower, k + 1 => (lower, lower + dxv) :: subintervalsFrom dxv (lower + dxv) k

/-- `Subintervals(a, b, k).subintervals()` of `structures.py`, with
`self.length = (self.b - self.a) / self.k`, under exact arithmetic. -/
def subintervals (a b : ℚ) (k : ℕ) : List (ℚ × ℚ) :=
  subintervalsFrom ((b - a) / (k : ℚ)) a k

/-- `methods.left` of `src/riemann/methods.py`: the lower endpoint of a
subinterval. -/
def left (iv : ℚ × ℚ) : ℚ := iv.1

/-- `methods.middle` of `src/riemann/methods.py`: the average of the
two endpoints. -/
def middle (iv : ℚ × ℚ) : ℚ := (iv.1 + iv.2) / 2

/-- `methods.right` of `src/riemann/methods.py`: the upper endpoint of
a subinterval. -/
def right (iv : ℚ × ℚ) : ℚ := iv.2

/-! ### Claim-side formulations

The spec describes the summation engine compositionally: per-dimension
subinterval lengths, per-dimension sample sequences, their Cartesian
product, and `ΔV * (sum of all function evaluations)`.  The following
definitions state those components directly (in the decimal arithmetic
the code uses), to be related to `rsum` itself. -/

/-- The sample value of dimension `dim` at subdivision index `i` in the
code's decimal arithmetic, using `dx = (b - a) / n`: `a + i*dx` under
the Lower rule, `a + (2*i + 1)/2 * dx` under the Midpoint rule and
`a + (i + 1)*dx` under the Upper rule. -/
def stepVal (dim : Dimension) (i : ℕ) : ℚ :=
  if dim.method = LOWER then dadd dim.a (dmul (i : ℚ) (dxVal dim))
  else if dim.method = MIDDLE then
    dadd dim.a (dmul (ddiv ((2 * i + 1 : ℕ) : ℚ) 2) (dxVal dim))
  else dadd dim.a (dmul ((i + 1 : ℕ) : ℚ) (dxVal dim))

/-- The per-dimension sample sequence of a dimension: one sample per
subdivision index in `[0, n)`. -/
def samplesD (dim : Dimension) : List ℚ :=
  (List.range dim.n.toNat).map (stepVal dim)

/-- The differential volume element `ΔV`: product of the per-dimension
subinterval lengths, accumulated in decimal arithmetic in dimension
order starting from `Decimal(1)`. -/
def deltaD (args : List Dimension) : ℚ := (args.map dxVal).foldl dmul 1

/-- Exact per-dimension subinterval length `(b - a) / n`, as a rational
number with no rounding. -/
def dxExact (dim : Dimension) : ℚ := (dim.b - dim.a) / (dim.n : ℚ)

/-- Exact sample value of a dimension at subdivision index `i`, as a
rational number with no rounding. -/
def sampleExact (dim : Dimension) (i : ℕ) : ℚ :=
  if dim.method = LOWER then dim.a + (i : ℚ) * dxExact dim
  else if dim.method = MIDDLE then dim.a + ((2 * i + 1 : ℕ) : ℚ) / 2 * dxExact dim
  else dim.a + ((i + 1 : ℕ) : ℚ) * dxExact dim

/-- Exact per-dimension sample sequence. -/
def samplesExact (dim : Dimension) : List ℚ :=
  (List.range dim.n.toNat).map (sampleExact dim)

/-- The mathematically exact value of the Riemann sum: exact
differential volume element times the exact sum of the function over
the Cartesian product of the exact sample sequences. -/
def rsumExact (func : List ℚ → ℚ) (args : List Dimension) : ℚ :=
  (args.map dxExact).prod * ((cartProd (args.map samplesExact)).map func).sum

/-! ### Helper lemmas -/

theorem decRound_zero : decRound 0 = 0 := by simp [decRound]

theorem dmul_zero (x : ℚ) : dmul x 0 = 0 := by simp [dmul, decRound_zero]

theorem andThenE_ok {α β : Type} (a : α) (f : α → Except PyErr β) :
    andThenE (.ok a) f = f a := rfl

theorem andThenE_error {α β : Type} (e : PyErr) (f : α → Except PyErr β) :
    andThenE (.error e) f = .error e := rfl

theorem zip_map_self {α β : Type} (f : α → β) :
    ∀ l : List α, l.zip (l.map f) = l.map fun a => (a, f a)
  | [] => rfl
  | a :: l => by simp [zip_map_self f l]

theorem mapE_map {α β γ : Type} (g : β → Except PyErr γ) (h : α → β) :
    ∀ l : List α, mapE g (l.map h) = mapE (fun a => g (h a)) l
  | [] => rfl
  | a :: l => by simp only [List.map_cons, mapE, mapE_map g h l]

theorem mapE_ok {α β : Type} (g : α → Except PyErr β) (h : α → β) :
    ∀ l : List α, (∀ a ∈ l, g a = .ok (h a)) → mapE g l = .ok (l.map h)
  | [], _ => rfl
  | a :: l, H => by
    have ha := H a (List.mem_cons_self a l)
    have hl := mapE_ok g h l (fun x hx => H x (List.mem_cons_of_mem a hx))
    simp [mapE, ha, hl, andThenE_ok]

theorem length_cartProd {α : Type} :
    ∀ ls : List (List α), (cartProd ls).length = (ls.map List.length).prod
  | [] => rfl
  | xs :: rest => by
    simp only [cartProd, List.length_flatMap, List.map_cons, List.prod_cons,
      Function.comp_def, List.length_map, length_cartProd rest]
    induction xs with
    | nil => simp
    | cons x xs ih => simp [ih, Nat.succ_mul, Nat.add_comm]

theorem map_constQ {α : Type} (c : ℚ) :
    ∀ l : List α, (l.map fun _ => c) = List.replicate l.length c
  | [] => rfl
  | a :: l => by simp [map_constQ c l, List.replicate_succ]

theorem mapE_dxE (args : List Dimension) (h : ∀ d ∈ args, d.n ≠ 0) :
    mapE dxE args = .ok (args.map dxVal) :=
  mapE_ok dxE dxVal args (fun d hd => by simp [dxE, dxVal, h d hd])

theorem mapE_dxE_err :
    ∀ args : List Dimension, (∃ d ∈ args, d.n = 0) →
      mapE dxE args = .error .divisionByZero
  | [], hex => by simp at hex
  | d :: l, hex => by
    by_cases hd : d.n = 0
    · simp [mapE, dxE, hd, andThenE_error]
    · have : ∃ x ∈ l, x.n = 0 := by
        rcases hex with ⟨x, hx, hx0⟩
        rcases List.mem_cons.mp hx with rfl | hxl
        · exact absurd hx0 hd
        · exact ⟨x, hxl, hx0⟩
      simp [mapE, dxE, hd, mapE_dxE_err l this, andThenE_ok, andThenE_error]

theorem partitionValues_okD (d : Dimension)
    (hm : d.method = LOWER ∨ d.method = MIDDLE ∨ d.method = UPPER) :
    partitionValues (d.a, d.b) (dxVal d) d.n d.method = .ok (samplesD d) := by
  apply mapE_ok
  intro i _
  rcases hm with h | h | h <;> simp [step, stepVal, h, LOWER, MIDDLE, UPPER]

theorem partitionValues_err (d : Dimension) (delta : ℚ) (h1 : 1 ≤ d.n)
    (h2 : ¬(d.method = LOWER ∨ d.method = MIDDLE ∨ d.method = UPPER)) :
    partitionValues (d.a, d.b) delta d.n d.method = .error .valueError := by
  push_neg at h2
  obtain ⟨k, hk⟩ : ∃ k, d.n.toNat = k + 1 := ⟨d.n.toNat - 1, by omega⟩
  rw [partitionValues, hk, List.range_succ_eq_map]
  simp [mapE, step, h2.1, h2.2.1, h2.2.2, andThenE_error]

theorem mapE_pv (args : List Dimension)
    (hm : ∀ d ∈ args, d.method = LOWER ∨ d.method = MIDDLE ∨ d.method = UPPER) :
    mapE (fun x : Dimension => partitionValues (x.a, x.b) (dxVal x) x.n x.method) args =
      .ok (args.map samplesD) :=
  mapE_ok _ samplesD args (fun d hd => partitionValues_okD d (hm d hd))

theorem pv_phase_err :
    ∀ args : List Dimension,
      (∀ d ∈ args, d.n ≠ 0) →
      (∃ d ∈ args, 1 ≤ d.n ∧
        ¬(d.method = LOWER ∨ d.method = MIDDLE ∨ d.method = UPPER)) →
      mapE (fun x : Dimension => partitionValues (x.a, x.b) (dxVal x) x.n x.method) args =
        .error .valueError
  | [], _, hex => by simp at hex
  | d :: l, hn, hex => by
    by_cases hd : 1 ≤ d.n ∧
        ¬(d.method = LOWER ∨ d.method = MIDDLE ∨ d.method = UPPER)
    · have := partitionValues_err d (dxVal d) hd.1 hd.2
      simp [mapE, this, andThenE_error]
    · have hdok : ∃ v, partitionValues (d.a, d.b) (dxVal d) d.n d.method = .ok v := by
        by_cases hm : d.method = LOWER ∨ d.method = MIDDLE ∨ d.method = UPPER
        · exact ⟨_, partitionValues_okD d hm⟩
        · have hneg : d.n < 1 := by
            by_contra hge
            exact hd ⟨by omega, hm⟩
          have htn : d.n.toNat = 0 := by omega
          exact ⟨[], by simp [partitionValues, htn, mapE]⟩
      obtain ⟨v, hv⟩ := hdok
      have hex' : ∃ x ∈ l, 1 ≤ x.n ∧
          ¬(x.method = LOWER ∨ x.method = MIDDLE ∨ x.method = UPPER) := by
        rcases hex with ⟨x, hx, hxp⟩
        rcases List.mem_cons.mp hx with rfl | hxl
        · exact absurd hxp hd
        · exact ⟨x, hxl, hxp⟩
      have hl := pv_phase_err l (fun x hx => hn x (List.mem_cons_of_mem d hx)) hex'
      simp [mapE, hv, hl, andThenE_ok, andThenE_error]

theorem rsum_eval (f : List ℚ → ℚ) (args : List Dimension)
    (hn : ∀ d ∈ args, d.n ≠ 0)
    (hm : ∀ d ∈ args, d.method = LOWER ∨ d.method = MIDDLE ∨ d.method = UPPER) :
    rsum f args.length args =
      .ok (dmul (deltaD args) (dsum ((cartProd (args.map samplesD)).map f))) := by
  simp only [rsum, ne_eq, not_true_eq_false, if_false, ite_false, if_neg,
    mapE_dxE args hn, andThenE_ok, zip_map_self dxVal args, mapE_map, mapE_pv args hm,
    deltaD]

theorem prod_dx_mul_count :
    ∀ args : List Dimension, (∀ d ∈ args, 1 ≤ d.n) →
      (args.map dxExact).prod * (((args.map fun d => d.n.toNat).prod : ℕ) : ℚ) =
        (args.map fun d => d.b - d.a).prod
  | [], _ => by simp
  | d :: l, H => by
    have h1 : 1 ≤ d.n := H d (List.mem_cons_self d l)
    have h0 : ((d.n : ℤ) : ℚ) ≠ 0 := by
      exact_mod_cast (by omega : (d.n : ℤ) ≠ 0)
    have htn : ((d.n.toNat : ℕ) : ℚ) = ((d.n : ℤ) : ℚ) := by
      exact_mod_cast congrArg (fun z : ℤ => (z : ℚ)) (Int.toNat_of_nonneg (by omega))
    have IH := prod_dx_mul_count l (fun x hx => H x (List.mem_cons_of_mem d hx))
    simp only [List.map_cons, List.prod_cons, Nat.cast_mul]
    rw [htn]
    calc (dxExact d * (l.map dxExact).prod) *
          (((d.n : ℤ) : ℚ) * (((l.map fun d => d.n.toNat).prod : ℕ) : ℚ))
        = (dxExact d * ((d.n : ℤ) : ℚ)) *
          ((l.map dxExact).prod * (((l.map fun d => d.n.toNat).prod : ℕ) : ℚ)) := by ring
      _ = (d.b - d.a) * (l.map fun d => d.b - d.a).prod := by
          rw [IH, dxExact, div_mul_cancel₀ _ h0]

theorem subFrom_map_left (dxv : ℚ) :
    ∀ (n : ℕ) (a : ℚ),
      (subintervalsFrom dxv a n).map left = closedSamples a dxv n LOWER
  | 0, _ => rfl
  | n + 1, a => by
    rw [closedSamples, List.range_succ_eq_map, List.map_cons, List.map_map]
    rw [subintervalsFrom, List.map_cons, subFrom_map_left dxv n (a + dxv), closedSamples]
    congr 1
    · simp [left, closedSample, LOWER]
    · apply List.map_congr_left
      intro i _
      simp only [closedSample, LOWER, Function.comp_apply, Nat.succ_eq_add_one]
      push_cast
      ring

theorem subFrom_map_middle (dxv : ℚ) :
    ∀ (n : ℕ) (a : ℚ),
      (subintervalsFrom dxv a n).map middle = closedSamples a dxv n MIDDLE
  | 0, _ => rfl
  | n + 1, a => by
    rw [closedSamples, List.range_succ_eq_map, List.map_cons, List.map_map]
    rw [subintervalsFrom, List.map_cons, subFrom_map_middle dxv n (a + dxv), closedSamples]
    congr 1
    · simp only [middle, closedSample, LOWER, MIDDLE]
      norm_num
      ring_nf
    · apply List.map_congr_left
      intro i _
      simp only [closedSample, LOWER, MIDDLE, Function.comp_apply, Nat.succ_eq_add_one]
      norm_num
      ring_nf

theorem subFrom_map_right (dxv : ℚ) :
    ∀ (n : ℕ) (a : ℚ),
      (subintervalsFrom dxv a n).map right = closedSamples a dxv n UPPER
  | 0, _ => rfl
  | n + 1, a => by
    rw [closedSamples, List.range_succ_eq_map, List.map_cons, List.map_map]
    rw [subintervalsFrom, List.map_cons, subFrom_map_right dxv n (a + dxv), closedSamples]
    congr 1
    · simp only [right, closedSample, LOWER, MIDDLE, UPPER]
      norm_num
    · apply List.map_congr_left
      intro i _
      simp only [closedSample, LOWER, MIDDLE, UPPER, Function.comp_apply,
        Nat.succ_eq_add_one]
      norm_num
      ring_nf

/-! ### Claim theorems -/

/-- C1: for every function `f` of `N` parameters and every list of `N`
dimensions with positive partition counts and recognized rules,
`rsum(f, dims)` returns the product of the per-dimension subinterval
lengths `dx_k = (upper_k - lower_k) / partitions_k` (the differential
volume element `ΔV`, accumulated in the engine's decimal arithmetic)
multiplied by the sum of `f` evaluated at every `N`-tuple of the
Cartesian product of the per-dimension sample sequences. -/
theorem rsum_is_deltaV_mul_sum (f : List ℚ → ℚ) (nparams : ℕ) (args : List Dimension)
    (hlen : nparams = args.length)
    (hn : ∀ d ∈ args, 1 ≤ d.n)
    (hm : ∀ d ∈ args, d.method = LOWER ∨ d.method = MIDDLE ∨ d.method = UPPER) :
    rsum f nparams args =
      .ok (dmul (deltaD args) (dsum ((cartProd (args.map samplesD)).map f))) := by
  subst hlen
  exact rsum_eval f args (fun d hd => by have := hn d hd; omega) hm

theorem rsum_is_deltaV_mul_sum_app :
    rsum (fun xs => xs.headI) 1 [Dimension.mk 0 1 2 LOWER] =
      .ok (dmul (deltaD [Dimension.mk 0 1 2 LOWER])
        (dsum ((cartProd ([Dimension.mk 0 1 2 LOWER].map samplesD)).map
          fun xs => xs.headI))) :=
  rsum_is_deltaV_mul_sum (fun xs => xs.headI) 1 [Dimension.mk 0 1 2 LOWER]
    (by decide) (by decide) (by decide)

/-- C2: for every dimension with lower bound `a`, upper bound `b`,
partition count `n ≥ 1` and `dx = (b - a)/n`, the per-dimension sample
sequence has exactly `n` elements, and its `i`-th element is
`a + i*dx` under the Lower rule, `a + (2*i + 1)/2 * dx` under the
Midpoint rule, and `a + (i + 1)*dx` under the Upper rule (all in the
engine's decimal arithmetic). -/
theorem partition_values_formulas (a b : ℚ) (n : ℤ) (hn : 1 ≤ n) :
    partitionValues (a, b) (ddiv (dsub b a) (n : ℚ)) n LOWER =
        .ok ((List.range n.toNat).map fun (i : ℕ) =>
          dadd a (dmul (i : ℚ) (ddiv (dsub b a) (n : ℚ)))) ∧
      partitionValues (a, b) (ddiv (dsub b a) (n : ℚ)) n MIDDLE =
        .ok ((List.range n.toNat).map fun (i : ℕ) =>
          dadd a (dmul (ddiv ((2 * i + 1 : ℕ) : ℚ) 2) (ddiv (dsub b a) (n : ℚ)))) ∧
      partitionValues (a, b) (ddiv (dsub b a) (n : ℚ)) n UPPER =
        .ok ((List.range n.toNat).map fun (i : ℕ) =>
          dadd a (dmul ((i + 1 : ℕ) : ℚ) (ddiv (dsub b a) (n : ℚ)))) ∧
      (((List.range n.toNat).map fun (i : ℕ) =>
          dadd a (dmul (i : ℚ) (ddiv (dsub b a) (n : ℚ)))).length : ℤ) = n := by
  refine ⟨mapE_ok _ _ _ ?_, mapE_ok _ _ _ ?_, mapE_ok _ _ _ ?_, ?_⟩
  · intro i _
    simp [step, LOWER, MIDDLE, UPPER]
  · intro i _
    simp [step, LOWER, MIDDLE, UPPER]
  · intro i _
    simp [step, LOWER, MIDDLE, UPPER]
  · simp only [List.length_map, List.length_range]
    omega

theorem partition_values_formulas_app :
    partitionValues ((0 : ℚ), (1 : ℚ)) (ddiv (dsub 1 0) ((2 : ℤ) : ℚ)) 2 LOWER =
      .ok ((List.range (2 : ℤ).toNat).map fun (i : ℕ) =>
        dadd 0 (dmul (i : ℚ) (ddiv (dsub 1 0) ((2 : ℤ) : ℚ)))) :=
  (partition_values_formulas 0 1 2 (by decide)).1

/-- C3: the claim states that `trapezoidal_rule(f, intervals)` equals
the `2^N`-average of the Riemann sums over all Lower/Upper rule
assignments.  The code instead passes the method classes `Left` and
`Right` (not the instances `LEFT`/`RIGHT`) into `riemann_sum`, so
`Interval.partitions` instantiates a class with two constructor
arguments and Python raises `TypeError`: for every 1-dimensional
interval with a positive partition count, `trapezoidal_rule` raises
instead of returning the average. -/
theorem trapezoidal_rule_type_error (f : List ℚ → ℚ) (a b : ℚ) (n : ℤ)
    (hn : 1 ≤ n) :
    trapezoidal_rule f 1 [(a, b, n)] = .error .typeError := by
  have hne : n ≠ 0 := by omega
  obtain ⟨k, hk⟩ : ∃ k, n.toNat = k + 1 := ⟨n.toNat - 1, by omega⟩
  have hmk : mkInterval a b n = .ok ⟨a, b, n, ddiv (dsub b a) (n : ℚ)⟩ := by
    simp [mkInterval, hne]
  have hpart : ∀ lo : ℚ,
      partitionsGo MethodV.leftC (ddiv (dsub b a) (n : ℚ)) lo (k + 1) =
        .error .typeError := by
    intro lo
    simp [partitionsGo, methodCall, andThenE_error]
  have hrs : riemann_sum f 1 [(a, b, n)] [MethodV.leftC] = .error .typeError := by
    simp only [riemann_sum, mapE, andThenE_ok, andThenE_error, hmk, mapE_map]
    simp [partitions, hk, hpart, andThenE_error, mapE, andThenE_ok]
  simp only [trapezoidal_rule, List.length_cons, List.length_nil, List.replicate,
    cartProd, List.flatMap]
  simp [mapE, hrs, andThenE_error]

theorem trapezoidal_rule_type_error_app :
    trapezoidal_rule (fun xs => xs.headI) 1 [((0 : ℚ), (1 : ℚ), (1 : ℤ))] =
      .error .typeError :=
  trapezoidal_rule_type_error (fun xs => xs.headI) 0 1 1 (by decide)

/-- C4: for every function `f` and every dimension list whose length
differs from the number of parameters of `f`, the summation engine
raises the arity-mismatch error (a `ValueError` in the code, the
`ArityMismatchError` of the spec's taxonomy), and the result does not
depend on `f` — `f` is never evaluated at any sample point. -/
theorem rsum_arity_mismatch (f : List ℚ → ℚ) (nparams : ℕ) (args : List Dimension)
    (h : args.length ≠ nparams) :
    rsum f nparams args = .error .valueError ∧
      ∀ g : List ℚ → ℚ, rsum g nparams args = rsum f nparams args := by
  refine ⟨?_, ?_⟩
  · rw [rsum, if_pos h]
  · intro g
    rw [rsum, if_pos h, rsum, if_pos h]

theorem rsum_arity_mismatch_app :
    rsum (fun xs => xs.headI) 2 [Dimension.mk 0 1 1 LOWER] = .error .valueError :=
  (rsum_arity_mismatch (fun xs => xs.headI) 2 [Dimension.mk 0 1 1 LOWER] (by decide)).1

/-- C5 counterexample: the claim asserts that every dimension with an
unrecognized rule makes the summation fail fast with the invalid-rule
error; but with a negative partition count (`n = -1`) the sample loop
`range(0, n)` is empty, the unrecognized rule tag `5` is never
inspected, and the summation returns `0` successfully. -/
theorem rsum_invalid_rule_counterexample :
    rsum (fun _ => (1 : ℚ)) 1 [Dimension.mk 0 1 (-1) 5] = .ok 0 := by decide

/-- C5 (amended): for every dimension list (of the function's arity,
with no zero partition count, so that the `dx` loop does not raise
first) containing a dimension with a positive partition count and an
unrecognized rule, the summation fails with the invalid-rule error
(a bare `ValueError` in the code) before any sample value is produced —
the result does not depend on `f` and is never a silent fallback to a
known rule. -/
theorem rsum_invalid_rule_amended (f : List ℚ → ℚ) (nparams : ℕ)
    (args : List Dimension)
    (hlen : nparams = args.length)
    (hn : ∀ d ∈ args, d.n ≠ 0)
    (hex : ∃ d ∈ args, 1 ≤ d.n ∧
      ¬(d.method = LOWER ∨ d.method = MIDDLE ∨ d.method = UPPER)) :
    rsum f nparams args = .error .valueError ∧
      ∀ g : List ℚ → ℚ, rsum g nparams args = rsum f nparams args := by
  subst hlen
  have H : ∀ g : List ℚ → ℚ, rsum g args.length args = .error .valueError := by
    intro g
    simp only [rsum, ne_eq, not_true_eq_false, if_false, ite_false, if_neg,
      mapE_dxE args hn, andThenE_ok, zip_map_self dxVal args, mapE_map,
      pv_phase_err args hn hex, andThenE_error]
  exact ⟨H f, fun g => (H g).trans (H f).symm⟩

theorem rsum_invalid_rule_amended_app :
    rsum (fun _ => (1 : ℚ)) 1 [Dimension.mk 0 1 2 7] = .error .valueError :=
  (rsum_invalid_rule_amended (fun _ => (1 : ℚ)) 1 [Dimension.mk 0 1 2 7]
    (by decide) (by decide) (by decide)).1

/-- C6 counterexample: the claim asserts
`rsum(λ*args: 1, dims) = Π (upper_k - lower_k)` for every positive
partition count, but on `[0, 1]` with `n = 3` the division `1/3`
rounds to 28 significant digits and the engine returns
`0.9999999999999999999999999999 ≠ 1`. -/
theorem rsum_const_one_counterexample :
    rsum (fun _ => (1 : ℚ)) 1 [Dimension.mk 0 1 3 LOWER] ≠
      .ok ((1 : ℚ) - 0) := by decide

/-- C6 (amended): the Riemann sum of the constant-one function equals
the hyper-volume `Π (upper_k - lower_k)` for every choice of
recognized rule and positive partition count, provided none of the
decimal operations involved rounds: each `dx_k` is exact, the
accumulated `ΔV` equals the exact product, the sum of ones accumulates
exactly, and the final product is representable. -/
theorem rsum_const_one_hypervolume_amended (nparams : ℕ) (args : List Dimension)
    (hlen : nparams = args.length)
    (hn : ∀ d ∈ args, 1 ≤ d.n)
    (hm : ∀ d ∈ args, d.method = LOWER ∨ d.method = MIDDLE ∨ d.method = UPPER)
    (hdelta : deltaD args = (args.map dxExact).prod)
    (hcount : dsum (List.replicate ((args.map fun d => d.n.toNat).prod) 1) =
      (((args.map fun d => d.n.toNat).prod : ℕ) : ℚ))
    (hfin : decRound ((args.map fun d => d.b - d.a).prod) =
      (args.map fun d => d.b - d.a).prod) :
    rsum (fun _ => (1 : ℚ)) nparams args =
      .ok ((args.map fun d => d.b - d.a).prod) := by
  subst hlen
  rw [rsum_eval (fun _ => (1 : ℚ)) args (fun d hd => by have := hn d hd; omega) hm]
  have hmap : ((cartProd (args.map samplesD)).map fun _ => (1 : ℚ)) =
      List.replicate ((args.map fun d => d.n.toNat).prod) 1 := by
    rw [map_constQ, length_cartProd]
    congr 1
    simp [List.map_map, samplesD, Function.comp_def]
  rw [hmap, hcount, hdelta]
  have : dmul ((args.map dxExact).prod)
      (((args.map fun d => d.n.toNat).prod : ℕ) : ℚ) =
      decRound ((args.map dxExact).prod *
        (((args.map fun d => d.n.toNat).prod : ℕ) : ℚ)) := rfl
  rw [this, prod_dx_mul_count args hn, hfin]

theorem rsum_const_one_hypervolume_app :
    rsum (fun _ => (1 : ℚ)) 1 [Dimension.mk 0 1 2 LOWER] =
      .ok (([Dimension.mk 0 1 2 LOWER].map fun d => d.b - d.a).prod) :=
  rsum_const_one_hypervolume_amended 1 [Dimension.mk 0 1 2 LOWER]
    (by decide) (by decide) (by decide) (by decide) (by decide) (by decide)

/-- C7 counterexample: the claim asserts that for rational bounds and
integer partition counts all engine arithmetic is exact and the result
equals the mathematically exact rational value; but for `f(x) = x`
over `[0, 1]` with `n = 3` the decimal division `1/3` rounds, and the
engine's result differs from the exact value `1/3`. -/
theorem rsum_exactness_counterexample :
    rsum (fun xs => xs.headI) 1 [Dimension.mk 0 1 3 LOWER] ≠
      .ok (rsumExact (fun xs => xs.headI) [Dimension.mk 0 1 3 LOWER]) := by decide

/-- C7 (amended): the engine computes in 28-significant-digit decimal
arithmetic, not exact rational arithmetic; the returned result equals
the mathematically exact rational value precisely on inputs where no
intermediate operation rounds: each accumulated quantity (`ΔV`, the
sample sequences, the running sum, and the final product) coincides
with its exact rational counterpart. -/
theorem rsum_exact_when_no_rounding (f : List ℚ → ℚ) (nparams : ℕ)
    (args : List Dimension)
    (hlen : nparams = args.length)
    (hn : ∀ d ∈ args, 1 ≤ d.n)
    (hm : ∀ d ∈ args, d.method = LOWER ∨ d.method = MIDDLE ∨ d.method = UPPER)
    (hdelta : deltaD args = (args.map dxExact).prod)
    (hsamp : ∀ d ∈ args, samplesD d = samplesExact d)
    (hsum : dsum ((cartProd (args.map samplesExact)).map f) =
      ((cartProd (args.map samplesExact)).map f).sum)
    (hfin : decRound (rsumExact f args) = rsumExact f args) :
    rsum f nparams args = .ok (rsumExact f args) := by
  subst hlen
  rw [rsum_eval f args (fun d hd => by have := hn d hd; omega) hm]
  rw [List.map_congr_left hsamp, hsum, hdelta]
  have : dmul ((args.map dxExact).prod)
      (((cartProd (args.map samplesExact)).map f).sum) =
      decRound (rsumExact f args) := rfl
  rw [this, hfin]

theorem rsum_exact_when_no_rounding_app :
    rsum (fun xs => xs.headI) 1 [Dimension.mk 0 1 2 LOWER] =
      .ok (rsumExact (fun xs => xs.headI) [Dimension.mk 0 1 2 LOWER]) :=
  rsum_exact_when_no_rounding (fun xs => xs.headI) 1 [Dimension.mk 0 1 2 LOWER]
    (by decide) (by decide) (by decide) (by decide) (by decide) (by decide) (by decide)

/-- C8 counterexample: the claim asserts the engine fails fast and
does not return a result for negative partition counts; but with
`n = -2` the sample loop is empty and the engine successfully returns
`0`. -/
theorem rsum_negative_partitions_counterexample :
    rsum (fun _ => (1 : ℚ)) 1 [Dimension.mk 0 1 (-2) LOWER] = .ok 0 := by decide

/-- C8 (amended): for a partition count of zero the engine does raise —
but by attempting the division (`decimal.DivisionByZero`), not via a
precondition check; for a negative partition count it does not fail at
all: the sample sequence is empty and the engine returns `0`. -/
theorem rsum_zero_negative_partitions_amended :
    (∀ (f : List ℚ → ℚ) (nparams : ℕ) (args : List Dimension),
        nparams = args.length → (∃ d ∈ args, d.n = 0) →
        rsum f nparams args = .error .divisionByZero) ∧
      (∀ (f : List ℚ → ℚ) (d : Dimension), d.n < 0 →
        rsum f 1 [d] = .ok 0) := by
  constructor
  · intro f nparams args hlen hex
    subst hlen
    simp only [rsum, ne_eq, not_true_eq_false, if_false, ite_false, if_neg,
      mapE_dxE_err args hex, andThenE_error]
  · intro f d h
    have hne : d.n ≠ 0 := by omega
    have htn : d.n.toNat = 0 := by omega
    simp [rsum, mapE, dxE, hne, partitionValues, htn, cartProd, dsum,
      andThenE_ok, dmul_zero]

theorem rsum_zero_negative_partitions_app :
    rsum (fun xs => xs.headI) 1 [Dimension.mk 0 1 0 LOWER] =
      .error .divisionByZero :=
  rsum_zero_negative_partitions_amended.1 (fun xs => xs.headI) 1
    [Dimension.mk 0 1 0 LOWER] (by decide) (by decide)

/-- C9: for every dimension with bounds `a`, `b` and `n` subdivisions,
the closed-form index formulation of sample generation (the formulas of
`_partition_values`) and the subinterval formulation (the incremental
cursor of `Subintervals.subintervals` followed by the endpoint/average
selectors of `methods.py`) produce identical sample sequences under
exact decimal arithmetic, for each of the three recognized rules. -/
theorem closed_form_eq_subinterval_form (a b : ℚ) (n : ℕ) :
    (subintervals a b n).map left = closedSamples a ((b - a) / (n : ℚ)) n LOWER ∧
      (subintervals a b n).map middle =
        closedSamples a ((b - a) / (n : ℚ)) n MIDDLE ∧
      (subintervals a b n).map right =
        closedSamples a ((b - a) / (n : ℚ)) n UPPER := by
  unfold subintervals
  exact ⟨subFrom_map_left _ n a, subFrom_map_middle _ n a, subFrom_map_right _ n a⟩

/-- C10 counterexample: the claim asserts that for a zero-parameter
function the result equals `f()` evaluated once; but Python's `sum`
and the final multiplication round to 28 significant digits, so a
value of `f()` needing 29 digits (here `10^28 + 1`) comes back
rounded to `10^28`, not equal to `f()`. -/
theorem rsum_nullary_counterexample :
    rsum (fun _ => ((10 : ℚ) ^ 28 + 1)) 0 [] ≠
      .ok ((10 : ℚ) ^ 28 + 1) := by decide

/-- C10 (amended): for a zero-parameter function `f`, `rsum(f)` with an
empty dimension list passes the arity check, the differential volume
element is the empty product `1`, the Cartesian product of zero
sequences contains exactly the empty tuple, and the result equals
`f()` evaluated once — provided the value of `f()` is representable in
the 28-digit context (otherwise it is returned rounded). -/
theorem rsum_nullary_amended (f : List ℚ → ℚ)
    (h : decRound (f []) = f []) :
    rsum f 0 [] = .ok (f []) ∧ cartProd ([] : List (List ℚ)) = [[]] := by
  refine ⟨?_, rfl⟩
  show Except.ok (decRound ((1 : ℚ) * decRound (0 + f []))) = Except.ok (f [])
  rw [zero_add, h, one_mul, h]

theorem rsum_nullary_app :
    rsum (fun _ => (5 : ℚ)) 0 [] = .ok 5 :=
  (rsum_nullary_amended (fun _ => (5 : ℚ)) (by decide)).1
